import Mathlib

/-!
Bit-index utilities of `shachain` and the PKCS7 helpers of `libwallet`.

A shallow embedding of

* `shachain/utils.go`: `getBit`, `getPrefix`, `countTrailingZeros`, `hashFromString`;
* `aes.go`: `pkcs7Padding`, `pkcs7UnPadding`.

Machine integers are natural numbers reduced modulo `2 ^ w` wherever the Go code
converts or wraps. An `index` is an unsigned 64-bit integer, read through the conversion
`uint64(index)` that every utility applies. Byte slices and strings are lists of byte
values.
-/

namespace Shachain

/-! ## Machine arithmetic -/

/-- Conversion `uint64(x)`. -/
def toUint64 (x : Nat) : Nat := x % 2 ^ 64

/-- Conversion `uint8(x)`. -/
def toUint8 (x : Nat) : Nat := x % 2 ^ 8

/-- Wrapping subtraction of two `uint64` values. -/
def subUint64 (a b : Nat) : Nat := (a % 2 ^ 64 + 2 ^ 64 - b % 2 ^ 64) % 2 ^ 64

/-- Left shift of a `uint64` value by an unsigned count: bits shifted past bit 63 are lost. -/
def shlUint64 (a count : Nat) : Nat := (a <<< count) % 2 ^ 64

/-- Modelled from the spec: the constant `maxHeight`, declared in `element.go` of the
`shachain` package, is the height of the tree, 48 (the chain has `2 ^ 48` elements). -/
def maxHeight : Nat := 48

/-! ## `utils.go` -/

/-- Go: `return uint8((uint64(index) >> position) & 1)`. -/
def getBit (index position : Nat) : Nat :=
  toUint8 ((toUint64 index >>> position) &&& 1)

/-- Go: `mask := (zero - 1) - uint64((1<<position)-1); return uint64(index) & mask`.
The variable `zero` is the `uint64` zero value, and the constant `1` takes the type
`uint64` of the enclosing conversion. -/
def getPrefix (index position : Nat) : Nat :=
  let mask := subUint64 (subUint64 0 1) (toUint64 (subUint64 (shlUint64 1 position) 1))
  toUint64 index &&& mask

/-- The `for ; zeros < maxHeight; zeros++` loop of `countTrailingZeros`, started at `zeros`.
One unit of fuel pays for one evaluation of the loop condition; `none` means the fuel ran
out before the loop was left. The counter is a `uint8`, so the increment wraps. -/
def countTrailingZerosLoop (index : Nat) : Nat → Nat → Option Nat
  | 0, _ => none
  | fuel + 1, zeros =>
    if zeros < maxHeight then
      if getBit index zeros ≠ 0 then some zeros
      else countTrailingZerosLoop index fuel (toUint8 (zeros + 1))
    else some zeros

/-- Go: `countTrailingZeros`. The only loop state is the `uint8` counter, so a run that has
not left the loop after `2 ^ 8 + 1` evaluations of the condition never leaves it. -/
def countTrailingZeros (index : Nat) : Option Nat :=
  countTrailingZerosLoop index (2 ^ 8 + 1) 0

/-- What the loop returns when started at `zeros`: the first position at or after `zeros`,
below `maxHeight`, whose bit is set, and `maxHeight` when there is none. -/
def IsLoopResult (index zeros r : Nat) : Prop :=
  zeros ≤ r ∧ r ≤ maxHeight ∧ (∀ j, zeros ≤ j → j < r → getBit index j = 0) ∧
    (r < maxHeight → getBit index r ≠ 0)

/-- The reading of `getPrefix` that the table in its comment gives: the mask has ones at
the bit positions `0..position` and zeros at every higher position, and the value returned
is `index AND mask`. -/
def getPrefixTabulated (index position : Nat) : Nat :=
  toUint64 index &&& (2 ^ (position + 1) - 1)

/-- Outcome of the hex decoding and of `hashFromString`: the Go `error` values. -/
inductive HashError where
  | hashStrSize
  | invalidByte (b : Nat)
  | length
  | invalidHashLength (n : Nat)
  deriving DecidableEq, Repr

/-- Modelled from the spec: `chainhash.HashSize` of the vendored `chainhash` package, which
is not among the sources; a hash is a fixed-size 32-byte value. -/
def hashSize : Nat := 32

/-- Modelled from the spec: `chainhash.MaxHashStringSize` of the vendored `chainhash`
package: the hexadecimal text of a 32-byte hash, two digits for each byte. -/
def maxHashStringSize : Nat := hashSize * 2

/-- Modelled from the spec: `chainhash.NewHash` of the vendored `chainhash` package, which
is not among the sources. A hash is exactly 32 bytes kept byte-exact: a slice of another
length is refused and a slice of 32 bytes is copied unchanged. -/
def newHash (buf : List Nat) : Except HashError (List Nat) :=
  if buf.length ≠ hashSize then .error (.invalidHashLength buf.length) else .ok buf

/-- The table `reverseHexTable` of Go's `encoding/hex`: the value of an ASCII hexadecimal
digit of either case, and `0xff` for every other byte. -/
def reverseHexTable (c : Nat) : Nat :=
  if 48 ≤ c ∧ c ≤ 57 then c - 48
  else if 97 ≤ c ∧ c ≤ 102 then c - 97 + 10
  else if 65 ≤ c ∧ c ≤ 70 then c - 65 + 10
  else 0xff

/-- The function `Decode` of Go's `encoding/hex`, on the bytes still to read: each pair of
digits gives the byte `(a << 4) | b`; the first byte that is no digit is reported, and a
single last digit is reported as a wrong length. -/
def decode : List Nat → Except HashError (List Nat)
  | [] => .ok []
  | [p] => if reverseHexTable p > 0x0f then .error (.invalidByte p) else .error .length
  | p :: q :: rest =>
    if reverseHexTable p > 0x0f then .error (.invalidByte p)
    else if reverseHexTable q > 0x0f then .error (.invalidByte q)
    else
      match decode rest with
      | .error e => .error e
      | .ok bytes => .ok (toUint8 ((reverseHexTable p <<< 4) ||| reverseHexTable q) :: bytes)

/-- The function `hex.DecodeString` of Go's `encoding/hex`. -/
def decodeString (s : List Nat) : Except HashError (List Nat) := decode s

/-- Go: `hashFromString`; the string is the list of its bytes. -/
def hashFromString (s : List Nat) : Except HashError (List Nat) :=
  if s.length > maxHashStringSize then .error .hashStrSize
  else
    let s := if s.length % 2 ≠ 0 then 48 :: s else s
    match decodeString s with
    | .error e => .error e
    | .ok buf =>
      match newHash buf with
      | .error e => .error e
      | .ok hash => .ok hash

/-- The sixteen hexadecimal digits in lower case, as bytes. -/
def hexDigitsLower : List Nat := "0123456789abcdef".toList.map Char.toNat

/-- The sixteen hexadecimal digits in upper case, as bytes. -/
def hexDigitsUpper : List Nat := "0123456789ABCDEF".toList.map Char.toNat

/-- A byte is a hexadecimal digit when it is one of the characters `0-9`, `a-f`, `A-F`. -/
def isHexDigit (c : Nat) : Prop := c ∈ hexDigitsLower ∨ c ∈ hexDigitsUpper

instance (c : Nat) : Decidable (isHexDigit c) := by unfold isHexDigit; infer_instance

/-- The value of a hexadecimal digit: its place among the sixteen digits. -/
def hexDigitValue (c : Nat) : Nat :=
  if c ∈ hexDigitsLower then hexDigitsLower.indexOf c else hexDigitsUpper.indexOf c

/-- A text of 64 hexadecimal digits of both cases, as bytes. -/
def sampleHashText : List Nat :=
  "00112233445566778899aabbccddeeffFFEEDDCCBBAA99887766554433221100".toList.map Char.toNat

end Shachain

namespace Libwallet

/-- The constant `aes.BlockSize` of Go's `crypto/aes`. -/
def blockSize : Nat := 16

/-- The two errors `pkcs7UnPadding` returns. -/
inductive PaddingError where
  | invalidSize
  | invalidByte
  deriving DecidableEq, Repr

/-- What a call does: it returns a value, returns an error, or stops in a run-time panic
(an index or a slice bound out of range). -/
inductive Outcome (α : Type) where
  | ok (value : α)
  | err (e : PaddingError)
  | panic
  deriving DecidableEq, Repr

/-- Go: `pkcs7Padding`. -/
def pkcs7Padding (src : List Nat) : List Nat :=
  let padding := blockSize - src.length % blockSize
  let padtext := List.replicate padding (Shachain.toUint8 padding)
  src ++ padtext

/-- The loop `for i := 0; i < unpadding; i++` of `pkcs7UnPadding`, with `n` iterations
left to run from `i`. -/
def checkPad (pad : List Nat) (unpadding : Nat) : Nat → Nat → Outcome Unit
  | 0, _ => .ok ()
  | n + 1, i =>
    match pad[i]? with
    | none => .panic
    | some b =>
      if b ≠ Shachain.toUint8 unpadding then .err .invalidByte
      else checkPad pad unpadding n (i + 1)

/-- Go: `pkcs7UnPadding`. Reading `src[length-1]` panics on an empty slice, and slicing
`src[len(src)-unpadding:]` panics when the lower bound is negative. -/
def pkcs7UnPadding (src : List Nat) : Outcome (List Nat) :=
  let length := src.length
  if length = 0 then .panic
  else
    match src[length - 1]? with
    | none => .panic
    | some last =>
      let unpadding := last
      if unpadding > blockSize ∨ unpadding = 0 then .err .invalidSize
      else if src.length < unpadding then .panic
      else
        let pad := src.drop (src.length - unpadding)
        match checkPad pad unpadding unpadding 0 with
        | .panic => .panic
        | .err e => .err e
        | .ok _ => .ok (src.take (length - unpadding))

end Libwallet

namespace Shachain

/-! ## Arithmetic reading of the bit utilities -/

theorem getBit_eq_div_mod (index position : Nat) :
    getBit index position = index % 2 ^ 64 / 2 ^ position % 2 := by
  unfold getBit toUint8 toUint64
  rw [Nat.and_one_is_mod, Nat.shiftRight_eq_div_pow]
  omega

theorem shlUint64_one (position : Nat) (h : position < 64) :
    shlUint64 1 position = 2 ^ position := by
  unfold shlUint64
  rw [Nat.one_shiftLeft]
  exact Nat.mod_eq_of_lt (Nat.pow_lt_pow_right (by decide) h)

theorem prefix_mask_eq (position : Nat) :
    subUint64 (subUint64 0 1) (toUint64 (subUint64 (shlUint64 1 position) 1))
      = 2 ^ 64 - 2 ^ position := by
  unfold subUint64 toUint64 shlUint64
  rw [Nat.one_shiftLeft]
  rcases Nat.lt_or_ge position 64 with h | h
  · have h1 : 2 ^ position < 2 ^ 64 := Nat.pow_lt_pow_right (by decide) h
    have h2 : 0 < 2 ^ position := Nat.two_pow_pos _
    rw [Nat.mod_eq_of_lt h1]
    omega
  · have h1 : 2 ^ 64 ∣ 2 ^ position := Nat.pow_dvd_pow 2 h
    have h2 : 2 ^ 64 ≤ 2 ^ position := Nat.pow_le_pow_right (by decide) h
    rw [Nat.mod_eq_zero_of_dvd h1]
    omega

theorem getPrefix_testBit (index position j : Nat) :
    (getPrefix index position).testBit j
      = (decide (position ≤ j) && (index % 2 ^ 64).testBit j) := by
  unfold getPrefix
  simp only []
  rw [prefix_mask_eq, Nat.testBit_and]
  unfold toUint64
  rcases Nat.lt_or_ge position 64 with h | h
  · have h1 : 2 ^ position - 1 < 2 ^ 64 := by
      have : 2 ^ position < 2 ^ 64 := Nat.pow_lt_pow_right (by decide) h
      omega
    have h2 : 2 ^ 64 - 2 ^ position = 2 ^ 64 - ((2 ^ position - 1) + 1) := by
      have : 0 < 2 ^ position := Nat.two_pow_pos _
      omega
    rw [h2, Nat.testBit_two_pow_sub_succ h1, Nat.testBit_two_pow_sub_one,
      Nat.testBit_mod_two_pow]
    by_cases hj : j < 64 <;> by_cases hp : position ≤ j <;> simp [hj, hp]
    intro _
    omega
  · have h2 : 2 ^ 64 ≤ 2 ^ position := Nat.pow_le_pow_right (by decide) h
    rw [Nat.sub_eq_zero_of_le h2, Nat.testBit_mod_two_pow]
    by_cases hj : j < 64 <;> by_cases hp : position ≤ j <;> simp [hj, hp]
    omega

theorem getPrefix_eq_sub_mod (index position : Nat) :
    getPrefix index position = index % 2 ^ 64 - index % 2 ^ 64 % 2 ^ position := by
  have h : index % 2 ^ 64 - index % 2 ^ 64 % 2 ^ position
      = 2 ^ position * (index % 2 ^ 64 / 2 ^ position) := by
    have := Nat.div_add_mod (index % 2 ^ 64) (2 ^ position)
    omega
  rw [h]
  apply Nat.eq_of_testBit_eq
  intro j
  rw [getPrefix_testBit, Nat.testBit_mul_pow_two, ← Nat.shiftRight_eq_div_pow,
    Nat.testBit_shiftRight]
  by_cases hp : position ≤ j
  · simp [hp, Nat.add_sub_cancel' hp]
  · simp [hp]

theorem bit_eq_toNat_testBit (x j : Nat) : x / 2 ^ j % 2 = (x.testBit j).toNat := by
  rw [Nat.testBit_to_div_mod]
  rcases Nat.mod_two_eq_zero_or_one (x / 2 ^ j) with h | h <;> simp [h]

/-- The bits below `n` are all zero exactly when `2 ^ n` divides the number. -/
theorem low_bits_zero_iff_dvd (x n : Nat) :
    (∀ j, j < n → x / 2 ^ j % 2 = 0) ↔ 2 ^ n ∣ x := by
  induction n with
  | zero => simp
  | succ n ih =>
    constructor
    · intro h
      have hn : 2 ^ n ∣ x := ih.mp (fun j hj => h j (Nat.lt_succ_of_lt hj))
      obtain ⟨k, rfl⟩ := hn
      have hk := h n (Nat.lt_succ_self n)
      rw [Nat.mul_div_cancel_left k (Nat.two_pow_pos _)] at hk
      rw [Nat.pow_succ]
      exact Nat.mul_dvd_mul_left _ (Nat.dvd_of_mod_eq_zero hk)
    · intro h j hj
      have hn : 2 ^ n ∣ x := Dvd.dvd.trans (Nat.pow_dvd_pow 2 (Nat.le_succ n)) h
      rcases Nat.lt_succ_iff_lt_or_eq.mp hj with hlt | rfl
      · exact ih.mpr hn j hlt
      · obtain ⟨k, rfl⟩ := h
        have : 2 ^ (j + 1) * k = 2 ^ j * (2 * k) := by rw [Nat.pow_succ, Nat.mul_assoc]
        rw [this, Nat.mul_div_cancel_left _ (Nat.two_pow_pos _)]
        omega

/-! ## The loop of `countTrailingZeros` -/

theorem isLoopResult_unique (index zeros r r' : Nat)
    (h : IsLoopResult index zeros r) (h' : IsLoopResult index zeros r') : r = r' := by
  obtain ⟨h1, h2, h3, h4⟩ := h
  obtain ⟨h1', h2', h3', h4'⟩ := h'
  rcases Nat.lt_trichotomy r r' with hlt | heq | hgt
  · exact absurd (h3' r h1 hlt) (h4 (by omega))
  · exact heq
  · exact absurd (h3 r' h1' hgt) (h4' (by omega))

/-- With enough fuel to reach `maxHeight`, the loop is left with the expected counter. -/
theorem countTrailingZerosLoop_spec (index : Nat) :
    ∀ fuel zeros, zeros ≤ maxHeight → maxHeight + 1 ≤ zeros + fuel →
      ∃ r, countTrailingZerosLoop index fuel zeros = some r ∧ IsLoopResult index zeros r := by
  intro fuel
  induction fuel with
  | zero =>
    intro zeros h1 h2
    omega
  | succ fuel ih =>
    intro zeros h1 h2
    unfold countTrailingZerosLoop
    by_cases hz : zeros < maxHeight
    · rw [if_pos hz]
      by_cases hb : getBit index zeros ≠ 0
      · rw [if_pos hb]
        exact ⟨zeros, rfl, Nat.le_refl _, h1, fun j hj hj' => by omega, fun _ => hb⟩
      · rw [if_neg hb]
        have hb0 : getBit index zeros = 0 := by omega
        have hw : toUint8 (zeros + 1) = zeros + 1 := by
          unfold toUint8
          unfold maxHeight at hz
          omega
        rw [hw]
        obtain ⟨r, hr, g1, g2, g3, g4⟩ := ih (zeros + 1) (by omega) (by omega)
        refine ⟨r, hr, by omega, g2, ?_, g4⟩
        intro j hj hj'
        rcases Nat.eq_or_lt_of_le hj with heq | hlt
        · rw [← heq]; exact hb0
        · exact g3 j hlt hj'
    · rw [if_neg hz]
      exact ⟨zeros, rfl, Nat.le_refl _, h1, fun j hj hj' => by omega, fun h => absurd h hz⟩

/-- The result of `countTrailingZeros`, read on the 64-bit value of the index. -/
theorem countTrailingZeros_dvd (index : Nat) :
    ∃ t, countTrailingZeros index = some t ∧ t ≤ 48 ∧ 2 ^ t ∣ index % 2 ^ 64 ∧
      (t < 48 → ¬ 2 ^ (t + 1) ∣ index % 2 ^ 64) := by
  obtain ⟨r, hr, -, g2, g3, g4⟩ :=
    countTrailingZerosLoop_spec index (2 ^ 8 + 1) 0 (Nat.zero_le _) (by unfold maxHeight; omega)
  refine ⟨r, hr, g2, ?_, ?_⟩
  · apply (low_bits_zero_iff_dvd _ _).mp
    intro j hj
    rw [← getBit_eq_div_mod]
    exact g3 j (Nat.zero_le _) hj
  · intro ht hdvd
    have := (low_bits_zero_iff_dvd _ _).mpr hdvd r (Nat.lt_succ_self r)
    rw [← getBit_eq_div_mod] at this
    exact g4 ht this

/-- The divisibility reading determines the result of `countTrailingZeros`. -/
theorem countTrailingZeros_eq_of_dvd (x t : Nat) (hx : x < 2 ^ 64) (ht : t ≤ 48)
    (hd : 2 ^ t ∣ x) (hn : t < 48 → ¬ 2 ^ (t + 1) ∣ x) : countTrailingZeros x = some t := by
  obtain ⟨u, hu, hle, hdvd, hnd⟩ := countTrailingZeros_dvd x
  rw [Nat.mod_eq_of_lt hx] at hdvd hnd
  rcases Nat.lt_trichotomy t u with h | h | h
  · exact absurd (Dvd.dvd.trans (Nat.pow_dvd_pow 2 h) hdvd) (hn (by omega))
  · rw [hu, h]
  · exact absurd (Dvd.dvd.trans (Nat.pow_dvd_pow 2 h) hd) (hnd (by omega))

/-! ## Claims on the bit utilities -/

/-- C1: for an index below `2 ^ 48`, `countTrailingZeros` returns 48 on index 0 and
otherwise the unique `t` below 48 such that bit `t` of the index is 1 and the bits
`0..t-1` are all 0. -/
theorem countTrailingZeros_counts_trailing_zeros (index : Nat) (h : index < 2 ^ 48) :
    (index = 0 → countTrailingZeros index = some 48) ∧
    (index ≠ 0 → ∃ t, countTrailingZeros index = some t ∧ t < 48 ∧
      index / 2 ^ t % 2 = 1 ∧ (∀ j, j < t → index / 2 ^ j % 2 = 0) ∧
      ∀ u, u < 48 → index / 2 ^ u % 2 = 1 → (∀ j, j < u → index / 2 ^ j % 2 = 0) → u = t) := by
  obtain ⟨t, ht, hle, hdvd, hnd⟩ := countTrailingZeros_dvd index
  have hm : index % 2 ^ 64 = index := Nat.mod_eq_of_lt (by omega)
  rw [hm] at hdvd hnd
  constructor
  · intro h0
    subst h0
    rcases Nat.lt_or_ge t 48 with hlt | hge
    · exact absurd (Nat.dvd_zero _) (hnd hlt)
    · have : t = 48 := by omega
      rw [ht, this]
  · intro hne
    have hlt : t < 48 := by
      rcases Nat.lt_or_ge t 48 with hlt | hge
      · exact hlt
      · have h48 : t = 48 := by omega
        rw [h48] at hdvd
        exact absurd (Nat.eq_zero_of_dvd_of_lt hdvd h) hne
    have hlow : ∀ j, j < t → index / 2 ^ j % 2 = 0 := (low_bits_zero_iff_dvd _ _).mpr hdvd
    have hbit : index / 2 ^ t % 2 = 1 := by
      rcases Nat.mod_two_eq_zero_or_one (index / 2 ^ t) with h0 | h1
      · exfalso
        apply hnd hlt
        apply (low_bits_zero_iff_dvd _ _).mp
        intro j hj
        rcases Nat.lt_succ_iff_lt_or_eq.mp hj with hj' | rfl
        · exact hlow j hj'
        · exact h0
      · exact h1
    refine ⟨t, ht, hlt, hbit, hlow, ?_⟩
    intro u _ hu hulow
    rcases Nat.lt_trichotomy u t with h1 | h1 | h1
    · have := hlow u h1
      omega
    · exact h1
    · have := hulow t h1
      omega

/-- Witness of C1 at index 40 (binary 101000), whose bucket is 3. -/
theorem countTrailingZeros_counts_trailing_zeros_witness :
    (40 = 0 → countTrailingZeros 40 = some 48) ∧
    (40 ≠ 0 → ∃ t, countTrailingZeros 40 = some t ∧ t < 48 ∧
      40 / 2 ^ t % 2 = 1 ∧ (∀ j, j < t → 40 / 2 ^ j % 2 = 0) ∧
      ∀ u, u < 48 → 40 / 2 ^ u % 2 = 1 → (∀ j, j < u → 40 / 2 ^ j % 2 = 0) → u = t) :=
  countTrailingZeros_counts_trailing_zeros 40 (by decide)

/-- C2, as stated, fails: at index 1 and position 0 the bit at the position itself is
kept, so `getPrefix` returns 1 and not 0. -/
theorem getPrefix_keeps_bit_at_position :
    (1 < 2 ^ 48 ∧ 0 < 48) ∧ getPrefix 1 0 = 1 ∧ getPrefix 1 0 / 2 ^ 0 % 2 ≠ 0 := by
  decide

/-- C2, amended: for an index below `2 ^ 48` and a position below 48, `getPrefix` returns
the index with every bit strictly below the position cleared: the bits at and above the
position are unchanged and the bits `0..position-1` are 0. -/
theorem getPrefix_clears_bits_below_position (index position : Nat)
    (hi : index < 2 ^ 48) (_hp : position < 48) :
    getPrefix index position = index - index % 2 ^ position ∧
    ∀ j, (j < position → getPrefix index position / 2 ^ j % 2 = 0) ∧
      (position ≤ j → getPrefix index position / 2 ^ j % 2 = index / 2 ^ j % 2) := by
  have hm : index % 2 ^ 64 = index := Nat.mod_eq_of_lt (by omega)
  constructor
  · rw [getPrefix_eq_sub_mod, hm]
  · intro j
    rw [bit_eq_toNat_testBit, bit_eq_toNat_testBit, getPrefix_testBit, hm]
    constructor
    · intro hj
      have : ¬ position ≤ j := by omega
      simp [this]
    · intro hj
      simp [hj]

/-- Witness of the amended C2 at index 29 (binary 11101) and position 2. -/
theorem getPrefix_clears_bits_below_position_witness :
    getPrefix 29 2 = 29 - 29 % 2 ^ 2 ∧
    ∀ j, (j < 2 → getPrefix 29 2 / 2 ^ j % 2 = 0) ∧
      (2 ≤ j → getPrefix 29 2 / 2 ^ j % 2 = 29 / 2 ^ j % 2) :=
  getPrefix_clears_bits_below_position 29 2 (by decide) (by decide)

/-- C3: on the value of the comment table (bits 4, 3, 2 and 0 set, so 29) at position 2
the code returns 28, the bits at and above the position, where the table gives 5, the
bits at and below it. -/
theorem getPrefix_differs_from_comment_table :
    getPrefix 29 2 = 28 ∧ getPrefixTabulated 29 2 = 5 := by
  decide

/-- C4: for an index below `2 ^ 48` and a position below 48, `getBit` is 0 or 1 and is
`floor(index / 2 ^ position) mod 2`. -/
theorem getBit_is_bit_at_position (index position : Nat)
    (hi : index < 2 ^ 48) (_hp : position < 48) :
    (getBit index position = 0 ∨ getBit index position = 1) ∧
    getBit index position = index / 2 ^ position % 2 := by
  have hm : index % 2 ^ 64 = index := Nat.mod_eq_of_lt (by omega)
  rw [getBit_eq_div_mod, hm]
  exact ⟨Nat.mod_two_eq_zero_or_one _, rfl⟩

/-- Witness of C4 at index 5 and position 2. -/
theorem getBit_is_bit_at_position_witness :
    (getBit 5 2 = 0 ∨ getBit 5 2 = 1) ∧ getBit 5 2 = 5 / 2 ^ 2 % 2 :=
  getBit_is_bit_at_position 5 2 (by decide) (by decide)

/-- C5: on the 48-bit domain the utilities are total. For an index below `2 ^ 48` and a
position below 48 no conversion, shift or inner subtraction loses anything: `uint64(index)`
is the index, the `uint8` result of `getBit` is the bit computed, `1 << position` keeps
its bit, `(1 << position) - 1` does not wrap, and `getPrefix` returns a `uint64` not above
the index. For every index the loop of `countTrailingZeros` is left within 49 evaluations
of its condition, that is after at most 48 iterations, with a result in `0..48`. -/
theorem bit_utilities_total (index position : Nat)
    (hi : index < 2 ^ 48) (hp : position < 48) :
    (toUint64 index = index ∧
      getBit index position = (index >>> position) &&& 1 ∧ getBit index position < 2 ^ 8) ∧
    (shlUint64 1 position = 1 <<< position ∧
      subUint64 (shlUint64 1 position) 1 = (1 <<< position) - 1 ∧
      getPrefix index position < 2 ^ 64 ∧ getPrefix index position ≤ index) ∧
    (∀ i, ∃ r, countTrailingZerosLoop i (maxHeight + 1) 0 = some r ∧
      countTrailingZeros i = some r ∧ r ≤ 48) := by
  have hm : index % 2 ^ 64 = index := Nat.mod_eq_of_lt (by omega)
  have hpos : 0 < 2 ^ position := Nat.two_pow_pos _
  have hlt : 2 ^ position < 2 ^ 64 := Nat.pow_lt_pow_right (by decide) (by omega)
  refine ⟨⟨hm, ?_, ?_⟩, ⟨?_, ?_, ?_, ?_⟩, ?_⟩
  · rw [getBit_eq_div_mod, hm, Nat.and_one_is_mod, Nat.shiftRight_eq_div_pow]
  · rw [getBit_eq_div_mod]
    omega
  · rw [shlUint64_one position (by omega), Nat.one_shiftLeft]
  · rw [shlUint64_one position (by omega), Nat.one_shiftLeft]
    unfold subUint64
    omega
  · rw [getPrefix_eq_sub_mod, hm]
    omega
  · rw [getPrefix_eq_sub_mod, hm]
    omega
  · intro i
    obtain ⟨r, hr, hres⟩ :=
      countTrailingZerosLoop_spec i (maxHeight + 1) 0 (Nat.zero_le _) (by omega)
    obtain ⟨r2, hr2, hres2⟩ :=
      countTrailingZerosLoop_spec i (2 ^ 8 + 1) 0 (Nat.zero_le _) (by unfold maxHeight; omega)
    have heq : r2 = r := isLoopResult_unique i 0 r2 r hres2 hres
    subst heq
    exact ⟨r2, hr, hr2, hres.2.1⟩

/-- Witness of C5 at the largest index, `2 ^ 48 - 1`, and the largest position, 47. -/
theorem bit_utilities_total_witness :
    (toUint64 (2 ^ 48 - 1) = 2 ^ 48 - 1 ∧
      getBit (2 ^ 48 - 1) 47 = ((2 ^ 48 - 1) >>> 47) &&& 1 ∧ getBit (2 ^ 48 - 1) 47 < 2 ^ 8) ∧
    (shlUint64 1 47 = 1 <<< 47 ∧
      subUint64 (shlUint64 1 47) 1 = (1 <<< 47) - 1 ∧
      getPrefix (2 ^ 48 - 1) 47 < 2 ^ 64 ∧ getPrefix (2 ^ 48 - 1) 47 ≤ 2 ^ 48 - 1) ∧
    (∀ i, ∃ r, countTrailingZerosLoop i (maxHeight + 1) 0 = some r ∧
      countTrailingZeros i = some r ∧ r ≤ 48) :=
  bit_utilities_total (2 ^ 48 - 1) 47 (by decide) (by decide)

/-- C6, as stated, fails: the index `2 ^ 48` is out of range, yet every utility returns an
ordinary result for it, and `countTrailingZeros` gives it bucket 48, the bucket of the
valid index 0. -/
theorem out_of_range_index_gets_ordinary_result :
    (2 ^ 48 ≥ 2 ^ 48 ∧ 0 < 2 ^ 48) ∧
    countTrailingZeros (2 ^ 48) = some 48 ∧ countTrailingZeros 0 = some 48 ∧
    getBit (2 ^ 48) 48 = 1 ∧ getPrefix (2 ^ 48) 0 = 2 ^ 48 := by
  decide

/-- C6, amended: for an index from `2 ^ 48` up to the end of the `uint64` range the
utilities check no range and return ordinary results computed on the 64-bit value:
`getBit` the bit at the position, `getPrefix` the index with the bits below the position
cleared, `countTrailingZeros` the number of trailing zero bits capped at 48, which is
also the bucket of the valid index made of the low 48 bits. -/
theorem out_of_range_index_is_not_rejected (index position : Nat)
    (_hlo : 2 ^ 48 ≤ index) (hhi : index < 2 ^ 64) (_hp : position < 64) :
    getBit index position = index / 2 ^ position % 2 ∧
    getPrefix index position = index - index % 2 ^ position ∧
    (∃ t, countTrailingZeros index = some t ∧ t ≤ 48 ∧ 2 ^ t ∣ index ∧
      (t < 48 → ¬ 2 ^ (t + 1) ∣ index)) ∧
    (index % 2 ^ 48 < 2 ^ 48 ∧
      countTrailingZeros index = countTrailingZeros (index % 2 ^ 48)) := by
  have hm : index % 2 ^ 64 = index := Nat.mod_eq_of_lt hhi
  have hctz := countTrailingZeros_dvd index
  rw [hm] at hctz
  refine ⟨?_, ?_, hctz, Nat.mod_lt _ (Nat.two_pow_pos _), ?_⟩
  · rw [getBit_eq_div_mod, hm]
  · rw [getPrefix_eq_sub_mod, hm]
  · obtain ⟨t, ht, hle, hdvd, hnd⟩ := hctz
    have hlow : index % 2 ^ 48 < 2 ^ 64 := by
      have : index % 2 ^ 48 < 2 ^ 48 := Nat.mod_lt _ (Nat.two_pow_pos _)
      omega
    rw [ht]
    symm
    apply countTrailingZeros_eq_of_dvd _ _ hlow hle
    · exact (Nat.dvd_mod_iff (Nat.pow_dvd_pow 2 hle)).mpr hdvd
    · intro hlt hd
      exact hnd hlt ((Nat.dvd_mod_iff (Nat.pow_dvd_pow 2 (by omega))).mp hd)

/-- Witness of the amended C6 at index `2 ^ 48` and position 48. -/
theorem out_of_range_index_is_not_rejected_witness :
    getBit (2 ^ 48) 48 = 2 ^ 48 / 2 ^ 48 % 2 ∧
    getPrefix (2 ^ 48) 48 = 2 ^ 48 - 2 ^ 48 % 2 ^ 48 ∧
    (∃ t, countTrailingZeros (2 ^ 48) = some t ∧ t ≤ 48 ∧ 2 ^ t ∣ 2 ^ 48 ∧
      (t < 48 → ¬ 2 ^ (t + 1) ∣ 2 ^ 48)) ∧
    (2 ^ 48 % 2 ^ 48 < 2 ^ 48 ∧
      countTrailingZeros (2 ^ 48) = countTrailingZeros (2 ^ 48 % 2 ^ 48)) :=
  out_of_range_index_is_not_rejected (2 ^ 48) 48 (by decide) (by decide) (by decide)

/-- C8: for indices `A` and `B` below `2 ^ 48` with `t = countTrailingZeros(B)`, the
prefixes `getPrefix(A, t)` and `getPrefix(B, t)` agree exactly when `B ≤ A < B + 2 ^ t`.
The prefix of `B` is `B` itself, the whole range lies in the index space, and the only
`A ≤ B` with a matching prefix is `B`. -/
theorem prefix_match_iff_in_checkpoint_range (A B t : Nat)
    (hA : A < 2 ^ 48) (hB : B < 2 ^ 48) (ht : countTrailingZeros B = some t) :
    (getPrefix A t = getPrefix B t ↔ B ≤ A ∧ A < B + 2 ^ t) ∧
    getPrefix B t = B ∧ B + 2 ^ t ≤ 2 ^ 48 ∧
    (A ≤ B → getPrefix A t = getPrefix B t → A = B) := by
  have hmA : A % 2 ^ 64 = A := Nat.mod_eq_of_lt (by omega)
  have hmB : B % 2 ^ 64 = B := Nat.mod_eq_of_lt (by omega)
  obtain ⟨u, hu, hle, hdvd, -⟩ := countTrailingZeros_dvd B
  rw [ht] at hu
  have hut : t = u := Option.some.inj hu
  subst hut
  rw [hmB] at hdvd
  have hpos : 0 < 2 ^ t := Nat.two_pow_pos _
  have hB0 : B % 2 ^ t = 0 := Nat.mod_eq_zero_of_dvd hdvd
  have hAlt : A % 2 ^ t < 2 ^ t := Nat.mod_lt _ hpos
  have hpB : getPrefix B t = B := by rw [getPrefix_eq_sub_mod, hmB, hB0]; rfl
  have hpA : getPrefix A t = A - A % 2 ^ t := by rw [getPrefix_eq_sub_mod, hmA]
  have hAle : A % 2 ^ t ≤ A := Nat.mod_le _ _
  have hiff : getPrefix A t = getPrefix B t ↔ B ≤ A ∧ A < B + 2 ^ t := by
    rw [hpA, hpB]
    constructor
    · intro h
      omega
    · rintro ⟨h1, h2⟩
      obtain ⟨k, hk⟩ := hdvd
      have hA' : A = 2 ^ t * k + (A - B) := by omega
      have hmod : A % 2 ^ t = A - B := by
        rw [hA', Nat.mul_add_mod, Nat.mod_eq_of_lt (by omega)]
        omega
      omega
  refine ⟨hiff, hpB, ?_, ?_⟩
  · have h48 : 2 ^ t ∣ 2 ^ 48 := Nat.pow_dvd_pow 2 hle
    obtain ⟨k, hk⟩ := hdvd
    obtain ⟨m, hm⟩ := h48
    have hkm : k < m := by
      have : 2 ^ t * k < 2 ^ t * m := by omega
      exact Nat.lt_of_mul_lt_mul_left this
    have : 2 ^ t * (k + 1) ≤ 2 ^ t * m := Nat.mul_le_mul_left _ hkm
    rw [Nat.mul_add, Nat.mul_one] at this
    omega
  · intro hAB hmatch
    have := hiff.mp hmatch
    omega

/-- Witness of C8 at the checkpoint `B = 40` (bucket 3) and the index `A = 45`. -/
theorem prefix_match_iff_in_checkpoint_range_witness :
    (getPrefix 45 3 = getPrefix 40 3 ↔ 40 ≤ 45 ∧ 45 < 40 + 2 ^ 3) ∧
    getPrefix 40 3 = 40 ∧ 40 + 2 ^ 3 ≤ 2 ^ 48 ∧
    (45 ≤ 40 → getPrefix 45 3 = getPrefix 40 3 → 45 = 40) :=
  prefix_match_iff_in_checkpoint_range 45 40 3 (by decide) (by decide) (by decide)

/-! ## `hashFromString` -/

theorem reverseHexTable_of_mem :
    ∀ c ∈ hexDigitsLower ++ hexDigitsUpper,
      reverseHexTable c = hexDigitValue c ∧ hexDigitValue c ≤ 15 := by
  decide

theorem reverseHexTable_of_isHexDigit (c : Nat) (h : isHexDigit c) :
    reverseHexTable c = hexDigitValue c ∧ hexDigitValue c ≤ 15 :=
  reverseHexTable_of_mem c (List.mem_append.mpr h)

theorem nibbles_to_byte :
    ∀ a < 16, ∀ b < 16, toUint8 ((a <<< 4) ||| b) = 16 * a + b := by
  decide

/-- Decoding an even number of hexadecimal digits succeeds and gives one byte for each
pair of digits, in the order of the text. -/
theorem decode_of_hex_digits :
    ∀ n (s : List Nat), s.length = 2 * n → (∀ c, c ∈ s → isHexDigit c) →
      ∃ bytes, decode s = .ok bytes ∧ bytes.length = n ∧
        ∀ k a b, s[2 * k]? = some a → s[2 * k + 1]? = some b →
          bytes[k]? = some (16 * hexDigitValue a + hexDigitValue b) := by
  intro n
  induction n with
  | zero =>
    intro s hlen _
    have hs : s = [] := List.length_eq_zero.mp hlen
    subst hs
    exact ⟨[], rfl, rfl, fun k a b ha _ => by simp at ha⟩
  | succ n ih =>
    intro s hlen hdig
    match s, hlen, hdig with
    | [], hlen, _ => simp at hlen
    | [_], hlen, _ =>
      simp only [List.length_singleton] at hlen
      omega
    | p :: q :: rest, hlen, hdig =>
      obtain ⟨hp, hp15⟩ := reverseHexTable_of_isHexDigit p (hdig p (by simp))
      obtain ⟨hq, hq15⟩ := reverseHexTable_of_isHexDigit q (hdig q (by simp))
      have hrest : rest.length = 2 * n := by
        simp only [List.length_cons] at hlen
        omega
      obtain ⟨bytes, hdec, hbl, hbytes⟩ :=
        ih rest hrest (fun c hc => hdig c (by simp [hc]))
      have hnp : ¬ reverseHexTable p > 0x0f := by omega
      have hnq : ¬ reverseHexTable q > 0x0f := by omega
      refine ⟨(16 * hexDigitValue p + hexDigitValue q) :: bytes, ?_, ?_, ?_⟩
      · unfold decode
        rw [if_neg hnp, if_neg hnq, hdec, hp, hq]
        simp only []
        rw [nibbles_to_byte _ (by omega) _ (by omega)]
      · rw [List.length_cons, hbl]
      · intro k a b ha hb
        cases k with
        | zero =>
          simp only [Nat.mul_zero, List.getElem?_cons_zero, Option.some.injEq] at ha
          simp only [Nat.mul_zero, Nat.zero_add, List.getElem?_cons_succ,
            List.getElem?_cons_zero, Option.some.injEq] at hb
          subst ha
          subst hb
          exact List.getElem?_cons_zero
        | succ k =>
          have e1 : 2 * (k + 1) = (2 * k + 1) + 1 := by omega
          have e2 : 2 * (k + 1) + 1 = ((2 * k + 1) + 1) + 1 := by omega
          rw [e1, List.getElem?_cons_succ, List.getElem?_cons_succ] at ha
          rw [e2, List.getElem?_cons_succ, List.getElem?_cons_succ] at hb
          rw [List.getElem?_cons_succ]
          exact hbytes k a b ha hb

/-- C7: on a string of exactly 64 hexadecimal digits `hashFromString` succeeds and returns
32 bytes in the order of the text: byte `k` is `16 * value(s[2k]) + value(s[2k+1])`. -/
theorem hashFromString_keeps_byte_order (s : List Nat)
    (hlen : s.length = 64) (hdig : ∀ c, c ∈ s → isHexDigit c) :
    ∃ hash, hashFromString s = .ok hash ∧ hash.length = 32 ∧
      ∀ k a b, k < 32 → s[2 * k]? = some a → s[2 * k + 1]? = some b →
        hash[k]? = some (16 * hexDigitValue a + hexDigitValue b) := by
  obtain ⟨bytes, hdec, hbl, hbytes⟩ := decode_of_hex_digits 32 s (by omega) hdig
  refine ⟨bytes, ?_, hbl, fun k a b _ ha hb => hbytes k a b ha hb⟩
  have h1 : ¬ s.length > maxHashStringSize := by
    rw [hlen]
    decide
  have h2 : ¬ s.length % 2 ≠ 0 := by
    rw [hlen]
    decide
  have h3 : ¬ bytes.length ≠ hashSize := by
    rw [hbl]
    decide
  unfold hashFromString
  rw [if_neg h1]
  simp only [if_neg h2]
  unfold decodeString
  rw [hdec]
  simp only []
  unfold newHash
  rw [if_neg h3]

/-- Witness of C7 on a text of 64 digits that uses both cases. -/
theorem hashFromString_keeps_byte_order_witness :
    ∃ hash, hashFromString sampleHashText = .ok hash ∧ hash.length = 32 ∧
      ∀ k a b, k < 32 → sampleHashText[2 * k]? = some a →
        sampleHashText[2 * k + 1]? = some b →
        hash[k]? = some (16 * hexDigitValue a + hexDigitValue b) :=
  hashFromString_keeps_byte_order sampleHashText (by decide) (by decide)

end Shachain

namespace Libwallet

/-! ## PKCS7 padding -/

/-- The padding loop on a slice long enough never panics: it accepts when every byte it
visits is the padding byte, and otherwise reports a wrong byte. -/
theorem checkPad_cases (pad : List Nat) (u : Nat) :
    ∀ n i, i + n ≤ pad.length →
      (checkPad pad u n i = .ok () ∧
        ∀ k, i ≤ k → k < i + n → pad[k]? = some (Shachain.toUint8 u)) ∨
      (checkPad pad u n i = .err .invalidByte ∧
        ∃ k b, i ≤ k ∧ k < i + n ∧ pad[k]? = some b ∧ b ≠ Shachain.toUint8 u) := by
  intro n
  induction n with
  | zero =>
    intro i _
    left
    exact ⟨rfl, fun k h1 h2 => by omega⟩
  | succ n ih =>
    intro i hi
    unfold checkPad
    have hlt : i < pad.length := by omega
    rw [List.getElem?_eq_getElem hlt]
    simp only []
    by_cases hb : pad[i] ≠ Shachain.toUint8 u
    · rw [if_pos hb]
      right
      exact ⟨rfl, i, pad[i], Nat.le_refl _, by omega, List.getElem?_eq_getElem hlt, hb⟩
    · rw [if_neg hb]
      have hb' : pad[i] = Shachain.toUint8 u := by
        by_contra hc
        exact hb hc
      rcases ih (i + 1) (by omega) with ⟨h1, h2⟩ | ⟨h1, k, b, h2, h3, h4, h5⟩
      · left
        refine ⟨h1, ?_⟩
        intro k hk1 hk2
        rcases Nat.eq_or_lt_of_le hk1 with heq | hlt'
        · rw [← heq, List.getElem?_eq_getElem hlt, hb']
        · exact h2 k hlt' (by omega)
      · right
        exact ⟨h1, k, b, by omega, by omega, h4, h5⟩

/-- With a last byte `n` in `1..16` and at least `n` bytes, `pkcs7UnPadding` either strips
the last `n` bytes, all equal to `n`, or reports a byte among them that differs. -/
theorem pkcs7UnPadding_of_last (src : List Nat) (n : Nat)
    (hlast : src[src.length - 1]? = some n) (h1 : 1 ≤ n) (h16 : n ≤ 16)
    (hlen : n ≤ src.length) :
    (pkcs7UnPadding src = .ok (src.take (src.length - n)) ∧
      ∀ b, b ∈ src.drop (src.length - n) → b = n) ∨
    (pkcs7UnPadding src = .err .invalidByte ∧
      ∃ b, b ∈ src.drop (src.length - n) ∧ b ≠ n) := by
  have hu : Shachain.toUint8 n = n := by
    unfold Shachain.toUint8
    omega
  have hne : ¬ src.length = 0 := by omega
  have hsz : ¬ (n > blockSize ∨ n = 0) := by
    unfold blockSize
    omega
  have hsl : ¬ src.length < n := by omega
  have hpl : 0 + n ≤ (src.drop (src.length - n)).length := by
    rw [List.length_drop]
    omega
  unfold pkcs7UnPadding
  simp only [hne, if_false, hlast, hsz, hsl]
  rcases checkPad_cases (src.drop (src.length - n)) n n 0 hpl with ⟨hc, hall⟩ | ⟨hc, k, b, _, hk, hkb, hb⟩
  · left
    rw [hc]
    refine ⟨rfl, ?_⟩
    intro b hb
    obtain ⟨k, hk⟩ := List.mem_iff_getElem?.mp hb
    have hklt : k < (src.drop (src.length - n)).length := by
      by_contra hge
      rw [List.getElem?_eq_none (by omega)] at hk
      exact Option.noConfusion hk
    rw [List.length_drop] at hklt
    have := hall k (Nat.zero_le _) (by omega)
    rw [hk, hu] at this
    exact Option.some.inj this
  · right
    rw [hc]
    refine ⟨rfl, b, List.mem_iff_getElem?.mpr ⟨k, hkb⟩, ?_⟩
    rw [hu] at hb
    exact hb

/-- C9: un-padding a padded slice gives the slice back with no error and no panic, and
the padded slice has a length that is a multiple of 16 and exceeds the length of the
slice by between 1 and 16 bytes. -/
theorem pkcs7_round_trip (src : List Nat) :
    pkcs7UnPadding (pkcs7Padding src) = .ok src ∧
    16 ∣ (pkcs7Padding src).length ∧
    src.length + 1 ≤ (pkcs7Padding src).length ∧
    (pkcs7Padding src).length ≤ src.length + 16 := by
  have hmod : src.length % 16 < 16 := Nat.mod_lt _ (by decide)
  have hu : Shachain.toUint8 (16 - src.length % 16) = 16 - src.length % 16 := by
    unfold Shachain.toUint8
    omega
  have hpad : pkcs7Padding src
      = src ++ List.replicate (16 - src.length % 16) (16 - src.length % 16) := by
    unfold pkcs7Padding blockSize
    simp only [hu]
  have hlen : (pkcs7Padding src).length = src.length + (16 - src.length % 16) := by
    rw [hpad, List.length_append, List.length_replicate]
  have hlast : (pkcs7Padding src)[(pkcs7Padding src).length - 1]?
      = some (16 - src.length % 16) := by
    rw [hlen, hpad, List.getElem?_append_right (by omega), List.getElem?_replicate,
      if_pos (by omega)]
  have htake : (pkcs7Padding src).take ((pkcs7Padding src).length - (16 - src.length % 16))
      = src := by
    rw [hlen, Nat.add_sub_cancel, hpad, List.take_left]
  refine ⟨?_, ?_, by omega, by omega⟩
  · rcases pkcs7UnPadding_of_last (pkcs7Padding src) (16 - src.length % 16) hlast
        (by omega) (by omega) (by omega) with ⟨h, _⟩ | ⟨_, b, hb, hne⟩
    · rw [h, htake]
    · exfalso
      rw [hlen, Nat.add_sub_cancel, hpad, List.drop_left] at hb
      exact hne (List.eq_of_mem_replicate hb)
  · rw [hlen]
    omega

/-- C10: on a non-empty slice whose length is a multiple of 16, with last byte `n`,
`pkcs7UnPadding` does not panic; it returns an error exactly when `n = 0`, `n > 16`, or
one of the last `n` bytes differs from `n`, and otherwise returns the first
`len(src) - n` bytes. -/
theorem pkcs7UnPadding_on_whole_blocks (src : List Nat) (n : Nat)
    (hne : src ≠ []) (h16 : 16 ∣ src.length) (hn : src.getLast? = some n) :
    pkcs7UnPadding src ≠ .panic ∧
    ((∃ e, pkcs7UnPadding src = .err e) ↔
      (n = 0 ∨ n > 16 ∨ ∃ b, b ∈ src.drop (src.length - n) ∧ b ≠ n)) ∧
    (¬ (n = 0 ∨ n > 16 ∨ ∃ b, b ∈ src.drop (src.length - n) ∧ b ≠ n) →
      pkcs7UnPadding src = .ok (src.take (src.length - n))) := by
  have hpos : 0 < src.length := List.length_pos.mpr hne
  have hlen : 16 ≤ src.length := Nat.le_of_dvd hpos h16
  have hlast : src[src.length - 1]? = some n := by
    rw [← List.getLast?_eq_getElem?]
    exact hn
  by_cases hsz : n > 16 ∨ n = 0
  · have hres : pkcs7UnPadding src = .err .invalidSize := by
      have hne0 : ¬ src.length = 0 := by omega
      unfold pkcs7UnPadding
      simp only [hne0, if_false, hlast]
      rw [if_pos (by unfold blockSize; exact hsz)]
    have hcond : n = 0 ∨ n > 16 ∨ ∃ b, b ∈ src.drop (src.length - n) ∧ b ≠ n := by
      rcases hsz with h | h
      · exact Or.inr (Or.inl h)
      · exact Or.inl h
    refine ⟨?_, ⟨fun _ => hcond, fun _ => ⟨_, hres⟩⟩, fun h => absurd hcond h⟩
    rw [hres]
    exact fun h => Outcome.noConfusion h
  · rcases pkcs7UnPadding_of_last src n hlast (by omega) (by omega) (by omega)
      with ⟨h, hall⟩ | ⟨h, b, hb, hbn⟩
    · refine ⟨?_, ⟨?_, ?_⟩, fun _ => h⟩
      · rw [h]
        exact fun h => Outcome.noConfusion h
      · rintro ⟨e, he⟩
        rw [h] at he
        exact Outcome.noConfusion he
      · rintro (h0 | hgt | ⟨b, hb, hbn⟩)
        · omega
        · omega
        · exact absurd (hall b hb) hbn
    · have hcond : n = 0 ∨ n > 16 ∨ ∃ b, b ∈ src.drop (src.length - n) ∧ b ≠ n :=
        Or.inr (Or.inr ⟨b, hb, hbn⟩)
      refine ⟨?_, ⟨fun _ => hcond, fun _ => ⟨_, h⟩⟩, fun hc => absurd hcond hc⟩
      rw [h]
      exact fun h => Outcome.noConfusion h

/-- Witness of C10 on one block that ends in three padding bytes. -/
theorem pkcs7UnPadding_on_whole_blocks_witness :
    pkcs7UnPadding [0, 1, 2, 3, 4, 5, 6, 7, 8, 9, 10, 11, 12, 3, 3, 3] ≠ .panic ∧
    ((∃ e, pkcs7UnPadding [0, 1, 2, 3, 4, 5, 6, 7, 8, 9, 10, 11, 12, 3, 3, 3] = .err e) ↔
      (3 = 0 ∨ 3 > 16 ∨ ∃ b,
        b ∈ List.drop
          ([0, 1, 2, 3, 4, 5, 6, 7, 8, 9, 10, 11, 12, 3, 3, 3].length - 3)
          [0, 1, 2, 3, 4, 5, 6, 7, 8, 9, 10, 11, 12, 3, 3, 3] ∧ b ≠ 3)) ∧
    (¬ (3 = 0 ∨ 3 > 16 ∨ ∃ b,
        b ∈ List.drop
          ([0, 1, 2, 3, 4, 5, 6, 7, 8, 9, 10, 11, 12, 3, 3, 3].length - 3)
          [0, 1, 2, 3, 4, 5, 6, 7, 8, 9, 10, 11, 12, 3, 3, 3] ∧ b ≠ 3) →
      pkcs7UnPadding [0, 1, 2, 3, 4, 5, 6, 7, 8, 9, 10, 11, 12, 3, 3, 3]
        = .ok (List.take
          ([0, 1, 2, 3, 4, 5, 6, 7, 8, 9, 10, 11, 12, 3, 3, 3].length - 3)
          [0, 1, 2, 3, 4, 5, 6, 7, 8, 9, 10, 11, 12, 3, 3, 3])) :=
  pkcs7UnPadding_on_whole_blocks [0, 1, 2, 3, 4, 5, 6, 7, 8, 9, 10, 11, 12, 3, 3, 3] 3
    (by decide) (by decide) (by decide)

end Libwallet
